import Mathlib

/-!
Verification of the mismo record-linkage core: a shallow embedding of the
blocking engine (pair sampling, join classification), the comparison
(level-labeling) engine, and the Fellegi–Sunter weight-training code, with
theorems settling the specification's claims about them.
-/

namespace Mismo

/-- Modelled from the spec: the repository's `sample_all_pairs`
(`mismo/block/_util.py`, absent from the sources; only its tests are
present).  Per the spec (§4.1 PairSpace), it draws `k` distinct integers
from `[0, n_left*n_right)` (a direct combinatorial scheme, here a
seed-style shift enumeration standing in for the engine's random draw)
and maps each integer `x` to the pair `(x / n_right, x % n_right)`.
The `entropy` argument models the hidden random state of the tabular
engine: the real function takes no seed, and per the spec an unseeded
sample is non-reproducible, i.e. it may differ between runs (runs with
different `entropy`).  If `max_pairs` is `none` the full product is
returned; a request larger than the product is truncated to the product. -/
def sample_all_pairs (entropy n_left n_right : ℕ) (max_pairs : Option ℕ) :
    List (ℕ × ℕ) :=
  let N := n_left * n_right
  let k := match max_pairs with
    | none => N
    | some k => min k N
  (List.range k).map (fun i => ((i + entropy) % N / n_right, (i + entropy) % N % n_right))

/-- Modelled from the spec: the abstract syntax of a join condition as seen
by the join classifier (`mismo/block/_core.py`, absent from the sources;
only its tests are present).  A condition is a column-equality between a
left column and a right column, a boolean constant, a conjunction, a
disjunction, or some other non-equality comparison (string distance,
ranges, arbitrary functions), identified here by a description string. -/
inductive JoinCondition where
  | colEq (leftCol rightCol : String)
  | boolLit (b : Bool)
  | conj (a b : JoinCondition)
  | disj (a b : JoinCondition)
  | custom (description : String)
deriving DecidableEq

/-- Modelled from the spec: the join classifier.  Per §4.2, a single
left-column/right-column equality is fast; a conjunction is fast when at
least one conjunct is fast; a disjunction, a boolean constant, and any
non-equality predicate are slow. -/
def isFastJoin : JoinCondition → Bool
  | .colEq _ _ => true
  | .boolLit _ => false
  | .conj a b => isFastJoin a || isFastJoin b
  | .disj _ _ => false
  | .custom _ => false

/-- Modelled from the spec: the `on_slow` policy parameter of `join`. -/
inductive OnSlow where
  | ignore
  | warn
  | error
deriving DecidableEq

/-- Modelled from the spec: the observable outcome of the slow-join check
that `join` runs before dispatching the underlying join.  `ok none` means
the join proceeds silently; `ok (some w)` means it proceeds but a
`SlowJoinWarning` is surfaced; `Except.error` means it aborts with a
`SlowJoinError` before the join is executed. -/
def check_join_algorithm (cond : JoinCondition) (on_slow : OnSlow) :
    Except String (Option String) :=
  if isFastJoin cond then Except.ok none
  else
    match on_slow with
    | .ignore => Except.ok none
    | .warn => Except.ok (some "SlowJoinWarning")
    | .error => Except.error "SlowJoinError"

/-- Modelled from the spec: a `ComparisonLevel`
(`mismo/compare/_comparison.py`, absent from the sources; only its tests
are present): a named boolean predicate over a joined pair row.  The row
type is abstract (`α`), matching the engine-agnostic predicate. -/
structure ComparisonLevel (α : Type) where
  name : String
  condition : α → Bool

/-- Modelled from the spec: a `Comparison`: a name plus an ordered list of
explicitly declared levels.  The trailing `else` level is synthesized, not
stored. -/
structure Comparison (α : Type) where
  name : String
  levels : List (ComparisonLevel α)

/-- Modelled from the spec: the synthesized trailing level named `else`,
whose predicate is "none of the preceding levels matched". -/
def Comparison.elseLevel (c : Comparison α) : ComparisonLevel α :=
  ⟨"else", fun row => !(c.levels.any (fun lv => lv.condition row))⟩

/-- Modelled from the spec: the full level sequence of a Comparison: the
declared levels followed by the synthesized `else` level. -/
def Comparison.allLevels (c : Comparison α) : List (ComparisonLevel α) :=
  c.levels ++ [c.elseLevel]

/-- Modelled from the spec: `len(comparison)`, which counts the
synthesized `else` level. -/
def Comparison.length (c : Comparison α) : ℕ :=
  c.allLevels.length

/-- Modelled from the spec: the two distinguishable lookup errors: a
not-found error for an absent name (`KeyError`) and a range error for an
out-of-range integer index (`IndexError`). -/
inductive LookupError where
  | keyError
  | indexError
deriving DecidableEq

/-- Modelled from the spec: lookup of a level by name; raises a not-found
error if absent. -/
def Comparison.getByName (c : Comparison α) (n : String) :
    Except LookupError (ComparisonLevel α) :=
  match c.allLevels.find? (fun lv => lv.name = n) with
  | some lv => Except.ok lv
  | none => Except.error LookupError.keyError

/-- Modelled from the spec: lookup of a level by integer index; raises a
range error outside `[0, len)` where `len` includes the `else` level. -/
def Comparison.getByIndex (c : Comparison α) (i : ℤ) :
    Except LookupError (ComparisonLevel α) :=
  if h : 0 ≤ i ∧ i < (c.length : ℤ) then
    Except.ok (c.allLevels.get ⟨i.toNat, by
      have hlen : c.length = c.allLevels.length := rfl
      omega⟩)
  else Except.error LookupError.indexError

/-- Modelled from the spec: labeling of one pair row: evaluate each
declared level's predicate in declaration order; the first true predicate
determines the label; if none match, the label is `"else"`. -/
def Comparison.labelRow (c : Comparison α) (row : α) : String :=
  match c.levels.find? (fun lv => lv.condition row) with
  | some lv => lv.name
  | none => "else"

/-- The cost Comparison from the repository's test suite: levels `large`
(`cost_l > 10`) and `exact` (`cost_l == cost_r`), in that declaration
order, over rows modelled as `(cost_l, cost_r)` pairs. -/
def costComparison : Comparison (ℤ × ℤ) :=
  ⟨"cost",
    [⟨"large", fun p => decide (p.1 > 10)⟩,
     ⟨"exact", fun p => decide (p.1 = p.2)⟩]⟩

/-- From `mismo/fs/_train.py` (`level_proportions`): the count dictionary
entry for one level after smoothing: levels absent from the observed
labels are pretended to have been seen once (`counts_dict.setdefault(lev, 1)`). -/
def smoothed_count (labels : List ℤ) (lev : ℤ) : ℕ :=
  if labels.count lev = 0 then 1 else labels.count lev

/-- From `mismo/fs/_train.py` (`level_proportions`): `n_total`, the sum of
all values of the count dictionary, whose keys are the distinct observed
labels plus every level (missing ones defaulted to a count of 1). -/
def smoothed_total (levels labels : List ℤ) : ℕ :=
  ((levels.dedup).map (smoothed_count labels)).sum
    + (((labels.dedup).filter (fun v => decide (v ∉ levels))).map
        (fun v => labels.count v)).sum

/-- From `mismo/fs/_train.py` (`level_proportions`): the proportion of
labels falling into each level, in level order, after zero-count
smoothing.  Levels are identified by their integer codes, as in the
source (`levels(lev).as_integer()`). -/
def level_proportions (levels labels : List ℤ) : List ℚ :=
  levels.map (fun lev =>
    (smoothed_count labels lev : ℚ) / (smoothed_total levels labels : ℚ))

/-- From `mismo/fs/_weights.py` (declared there; carried by `_train.py`):
one level's trained weights, reporting `m` and `u` individually. -/
structure LevelWeights where
  name : String
  m : ℚ
  u : ℚ
deriving DecidableEq

/-- From `mismo/fs/_weights.py`: the weights of one comparer: its name and
the ordered `LevelWeights` of its non-`else` levels. -/
structure ComparerWeights where
  name : String
  level_weights : List LevelWeights
deriving DecidableEq

/-- From `mismo/fs/_train.py` (`make_weights`): zip the comparer's levels
with the m and u estimates, drop the level named `else`, and assemble a
`ComparerWeights`.  The source's `assert len(ms) == len(us) == len(levels)`
is modelled by returning `none` when the lengths disagree. -/
def make_weights (comparer_name : String) (levels : List String)
    (ms us : List ℚ) : Option ComparerWeights :=
  if ms.length = us.length ∧ us.length = levels.length then
    some ⟨comparer_name,
      (((levels.zip (ms.zip us)).map
          (fun x => LevelWeights.mk x.1 x.2.1 x.2.2)).filter
        (fun lw => lw.name ≠ "else"))⟩
  else none

/-- A record row for the training pipeline: one compared value and the
optional ground-truth entity label (`label_true`, NULL allowed). -/
structure Rec where
  value : ℤ
  label_true : Option ℤ
deriving DecidableEq

/-- Default row used for in-range indexed access. -/
def defaultRec : Rec := ⟨0, none⟩

/-- A `LevelComparer` from `mismo/compare` as used by `fs/_train.py`:
a name and the ordered levels, each a name plus a predicate over a joined
pair of records; the final level is the catch-all `else`. -/
structure LevelComparer where
  name : String
  levels : List (String × (Rec → Rec → Bool))

/-- The integer codes of a comparer's levels, in declaration order
(the source's `levels(lev).as_integer()` enumeration). -/
def LevelComparer.levelCodes (c : LevelComparer) : List ℤ :=
  (List.range c.levels.length).map Int.ofNat

/-- Labeling one joined pair with a comparer: the integer code of the
first level whose predicate holds. -/
def LevelComparer.labelCode (c : LevelComparer) (l r : Rec) : ℤ :=
  Int.ofNat (c.levels.findIdx (fun lv => lv.2 l r))

/-- Modelled from the spec: `sample_table` (`mismo/_util.py`, absent from
the sources): a uniform sample of `n` rows without replacement, seedable;
per the spec, with a seed the draw depends only on `(rows, n, seed)`,
while without one it depends on the engine's hidden random state
(the `entropy` argument). -/
def sample_table {α : Type} (entropy : ℕ) (rows : List α) (n : ℕ)
    (seed : Option ℕ) : List α :=
  (rows.rotate ((seed.getD entropy) % (rows.length + 1))).take n

/-- From `mismo/fs/_train.py` (`_true_pairs_from_labels`): the true-match
pairs, formed by key-blocking on `label_true`: all index pairs whose
(non-NULL) ground-truth labels are equal. -/
def true_pairs (left right : List Rec) : List (ℕ × ℕ) :=
  (List.range left.length).flatMap (fun i =>
    ((List.range right.length).filter (fun j =>
      match (left.getD i defaultRec).label_true,
            (right.getD j defaultRec).label_true with
      | some a, some b => a == b
      | _, _ => false)).map (fun j => (i, j)))

/-- From `mismo/fs/_train.py` (`train_ms_from_labels`): sample up to
`max_pairs` true-match pairs (`sample_table`, seedable), label them with
the comparer, and return the per-level proportions. -/
def train_ms_from_labels (entropy : ℕ) (c : LevelComparer)
    (left right : List Rec) (max_pairs : Option ℕ) (seed : Option ℕ) :
    List ℚ :=
  let pairs := true_pairs left right
  let mp := max_pairs.getD 1000000000
  let n_pairs := min pairs.length mp
  let sample := sample_table entropy pairs n_pairs seed
  level_proportions c.levelCodes
    (sample.map (fun ij =>
      c.labelCode (left.getD ij.1 defaultRec) (right.getD ij.2 defaultRec)))

/-- From `mismo/fs/_train.py` (`train_us_using_sampling`): draw up to
`max_pairs` pairs with `sample_all_pairs` — which takes no seed, so the
draw depends on the engine's hidden random state — label them, and return
the per-level proportions. -/
def train_us_using_sampling (entropy : ℕ) (c : LevelComparer)
    (left right : List Rec) (max_pairs : Option ℕ) : List ℚ :=
  let mp := max_pairs.getD 1000000000
  let sample := sample_all_pairs entropy left.length right.length (some mp)
  level_proportions c.levelCodes
    (sample.map (fun ij =>
      c.labelCode (left.getD ij.1 defaultRec) (right.getD ij.2 defaultRec)))

/-- From `mismo/fs/_train.py` (`_train_using_labels`): train one comparer,
m from labels (no seed is passed through) and u by unseeded sampling, and
assemble the weights. -/
def train_one_using_labels (entropy : ℕ) (c : LevelComparer)
    (left right : List Rec) (max_pairs : Option ℕ) : Option ComparerWeights :=
  make_weights c.name (c.levels.map Prod.fst)
    (train_ms_from_labels entropy c left right max_pairs none)
    (train_us_using_sampling entropy c left right max_pairs)

/-- From `mismo/fs/_train.py` (`train_using_labels`): train every comparer
of a model; note the signature offers no seed parameter. -/
def train_using_labels (entropy : ℕ) (cs : List LevelComparer)
    (left right : List Rec) (max_pairs : Option ℕ) :
    List (Option ComparerWeights) :=
  cs.map (fun c => train_one_using_labels entropy c left right max_pairs)

/-- The comparer of the C2 counterexample: an `exact` level
(equal values) and the catch-all `else` level. -/
def exactComparer : LevelComparer :=
  ⟨"cost",
    [("exact", fun l r => l.value == r.value),
     ("else", fun _ _ => true)]⟩

/-- Left dataset of the C2 counterexample. -/
def cexLeft : List Rec := [⟨1, some 0⟩, ⟨2, some 1⟩]

/-- Right dataset of the C2 counterexample. -/
def cexRight : List Rec := [⟨1, some 0⟩, ⟨1, some 1⟩]

/-- From `mismo/block/_blocker.py`: a table is its column names plus rows
of values. -/
structure Table where
  cols : List String
  rows : List (List ℤ)
deriving DecidableEq

/-- From `mismo/_dataset.py` as used by `_blocker.py`: a dataset is a
table with its declared unique-id column. -/
structure Dataset where
  table : Table
  unique_id_column : String

/-- From `mismo/block/_blocker.py` (`join_datasets`): `Table.relabel`,
renaming every column. -/
def relabel (t : Table) (f : String → String) : Table :=
  ⟨t.cols.map f, t.rows⟩

/-- The engine's `inner_join` on a shared key column name, as invoked by
`join_datasets`: rows of `a` paired with the rows of `b` whose key value
matches; a missing key column is an engine error. -/
def inner_join (a b : Table) (key : String) : Except String Table :=
  match a.cols.findIdx? (fun col => col == key),
      b.cols.findIdx? (fun col => col == key) with
  | some i, some j =>
      Except.ok ⟨a.cols ++ b.cols,
        (a.rows.map (fun ra =>
          (b.rows.filter (fun rb => ra.getD i 0 == rb.getD j 0)).map
            (fun rb => ra ++ rb))).flatten⟩
  | _, _ => Except.error "join key not found"

/-- From `mismo/block/_blocker.py` (`check_id_pairs`): raise `ValueError`
unless the candidate-pair table has exactly two columns. -/
def check_id_pairs (id_pairs : Table) : Except String Unit :=
  if id_pairs.cols.length ≠ 2 then
    Except.error ("Expected id_pairs to have 2 columns, but it has "
      ++ String.intercalate ", " id_pairs.cols)
  else Except.ok ()

/-- From `mismo/block/_blocker.py` (`join_datasets`): check the id-pair
table, suffix the left and right columns with `_l`/`_r`, and inner-join
both sides onto the pair table. -/
def join_datasets (left right : Dataset) (pair_table : Table) : Except String Table := do
  check_id_pairs pair_table
  let left2 := relabel left.table (fun col => col ++ "_l")
  let right2 := relabel right.table (fun col => col ++ "_r")
  let j1 ← inner_join pair_table left2 (left.unique_id_column ++ "_l")
  inner_join j1 right2 (right.unique_id_column ++ "_r")

/-- A one-row, one-id-column dataset used by the C9 witness. -/
def cexDataset : Dataset := ⟨⟨["record_id"], [[0]]⟩, "record_id"⟩

/-- ASCII lowercase letter test, used by the engine's `upper()`. -/
def isAsciiLowerChar (c : Char) : Bool :=
  97 ≤ c.toNat && c.toNat ≤ 122

/-- From `mismo/lib/name/_clean.py` (`normalize_name_field`): the engine's
`upper()` on one character: an ASCII lowercase letter is shifted to its
uppercase form, everything else is unchanged. -/
def pyUpperChar (c : Char) : Char :=
  if 97 ≤ c.toNat && c.toNat ≤ 122 then Char.ofNat (c.toNat - 32) else c

/-- The character class `[A-Za-z0-9]` of the regex in
`normalize_name_field`. -/
def isAlnumChar (c : Char) : Bool :=
  (65 ≤ c.toNat && c.toNat ≤ 90) || (97 ≤ c.toNat && c.toNat ≤ 122)
    || (48 ≤ c.toNat && c.toNat ≤ 57)

/-- The regex whitespace class `\s` (space, tab, newline, carriage return,
vertical tab, form feed), also used by `strip()`. -/
def isWsChar (c : Char) : Bool :=
  c.toNat = 32 || c.toNat = 9 || c.toNat = 10 || c.toNat = 13
    || c.toNat = 11 || c.toNat = 12

/-- `re_replace` of a one-or-more character-class regex with `" "`:
every maximal run of characters satisfying `p` becomes a single space.
The boolean state records whether we are inside such a run. -/
def collapseRunsAux (p : Char → Bool) : Bool → List Char → List Char
  | _, [] => []
  | inRun, c :: cs =>
    if p c then
      if inRun then collapseRunsAux p true cs
      else ' ' :: collapseRunsAux p true cs
    else c :: collapseRunsAux p false cs

/-- `re_replace(regex-class+, " ")` over a whole string. -/
def collapseRuns (p : Char → Bool) (s : List Char) : List Char :=
  collapseRunsAux p false s

/-- `strip()`: remove leading and trailing whitespace. -/
def stripChars (s : List Char) : List Char :=
  ((s.dropWhile isWsChar).reverse.dropWhile isWsChar).reverse

/-- From `mismo/lib/name/_clean.py`: `normalize_name_field`: uppercase,
replace runs of `[^A-Za-z0-9]` with a single space, collapse whitespace
runs to a single space, and strip.  Strings are modelled as `List Char`. -/
def normalize_name_field (s : List Char) : List Char :=
  stripChars
    (collapseRuns isWsChar
      (collapseRuns (fun c => !isAlnumChar c) (s.map pyUpperChar)))

/-- Proof infrastructure: the head of the list, if any, does not satisfy
`p`. -/
def headNotP (p : Char → Bool) : List Char → Prop
  | [] => True
  | c :: _ => p c = false

/-- Proof infrastructure: no two adjacent characters both satisfy `p`. -/
def noAdj (p : Char → Bool) : List Char → Bool
  | c :: d :: rest => (!(p c && p d)) && noAdj p (d :: rest)
  | _ => true

/-- C1: for `k ≤ n_left*n_right` the sample has exactly `k` pairs, all
distinct, with every left id `< n_left` and right id `< n_right`; and when
`n_left*n_right = 0` the result is empty for any requested count. -/
theorem sample_all_pairs_spec (entropy n_left n_right : ℕ) :
    (∀ k : ℕ, k ≤ n_left * n_right →
      (sample_all_pairs entropy n_left n_right (some k)).length = k
      ∧ (sample_all_pairs entropy n_left n_right (some k)).Nodup
      ∧ ∀ p ∈ sample_all_pairs entropy n_left n_right (some k),
          p.1 < n_left ∧ p.2 < n_right)
    ∧ (n_left * n_right = 0 →
        ∀ mp : Option ℕ, sample_all_pairs entropy n_left n_right mp = []) := by
  constructor
  · intro k hk
    by_cases hN : n_left * n_right = 0
    · have hk0 : k = 0 := by omega
      subst hk0
      refine ⟨?_, ?_, ?_⟩ <;> simp [sample_all_pairs]
    · have hNpos : 0 < n_left * n_right := Nat.pos_of_ne_zero hN
      have hr : 0 < n_right := by
        rcases Nat.eq_zero_or_pos n_right with h0 | h0
        · exact absurd (by simp [h0]) hN
        · exact h0
      have hl : 0 < n_left := by
        rcases Nat.eq_zero_or_pos n_left with h0 | h0
        · exact absurd (by simp [h0]) hN
        · exact h0
      refine ⟨?_, ?_, ?_⟩
      · simp [sample_all_pairs, Nat.min_eq_left hk]
      · have hinj : ∀ i ∈ List.range (min k (n_left * n_right)),
            ∀ j ∈ List.range (min k (n_left * n_right)),
            ((i + entropy) % (n_left * n_right) / n_right,
             (i + entropy) % (n_left * n_right) % n_right) =
            ((j + entropy) % (n_left * n_right) / n_right,
             (j + entropy) % (n_left * n_right) % n_right) → i = j := by
          intro i hi j hj hij
          simp only [List.mem_range] at hi hj
          have hx : (i + entropy) % (n_left * n_right)
              = (j + entropy) % (n_left * n_right) := by
            have h1 := congrArg Prod.fst hij
            have h2 := congrArg Prod.snd hij
            simp only at h1 h2
            calc (i + entropy) % (n_left * n_right)
                = n_right * ((i + entropy) % (n_left * n_right) / n_right)
                  + (i + entropy) % (n_left * n_right) % n_right :=
                  (Nat.div_add_mod _ _).symm
              _ = n_right * ((j + entropy) % (n_left * n_right) / n_right)
                  + (j + entropy) % (n_left * n_right) % n_right := by rw [h1, h2]
              _ = (j + entropy) % (n_left * n_right) := Nat.div_add_mod _ _
          have hik : i < n_left * n_right := lt_of_lt_of_le hi (min_le_right _ _)
          have hjk : j < n_left * n_right := lt_of_lt_of_le hj (min_le_right _ _)
          have hmod : (i + entropy) ≡ (j + entropy) [MOD n_left * n_right] := hx
          have hij2 : i ≡ j [MOD n_left * n_right] := hmod.add_right_cancel' entropy
          have := Nat.ModEq.eq_of_lt_of_lt hij2 hik hjk
          exact this
        exact List.Nodup.map_on hinj (List.nodup_range _)
      · intro p hp
        simp only [sample_all_pairs, List.mem_map, List.mem_range] at hp
        obtain ⟨i, _, rfl⟩ := hp
        have hxlt : (i + entropy) % (n_left * n_right) < n_left * n_right :=
          Nat.mod_lt _ hNpos
        constructor
        · exact Nat.div_lt_of_lt_mul (by rwa [Nat.mul_comm] at hxlt ⊢)
        · exact Nat.mod_lt _ hr
  · intro hN mp
    cases mp <;> simp [sample_all_pairs, hN]

/-- Witness for C1 at `entropy = 5`, `n_left = 2`, `n_right = 3`, `k = 4`. -/
theorem sample_all_pairs_spec_witness :
    (sample_all_pairs 5 2 3 (some 4)).length = 4
    ∧ (sample_all_pairs 5 2 3 (some 4)).Nodup
    ∧ (∀ p ∈ sample_all_pairs 5 2 3 (some 4), p.1 < 2 ∧ p.2 < 3)
    ∧ sample_all_pairs 7 0 3 (some 9) = [] := by
  refine ⟨?_, ?_, ?_, ?_⟩
  · exact ((sample_all_pairs_spec 5 2 3).1 4 (by decide)).1
  · exact ((sample_all_pairs_spec 5 2 3).1 4 (by decide)).2.1
  · exact ((sample_all_pairs_spec 5 2 3).1 4 (by decide)).2.2
  · exact (sample_all_pairs_spec 7 0 3).2 (by decide) (some 9)

/-- C3: the join classifier returns fast for a single left-column =
right-column equality; fast for a conjunction with at least one fast
conjunct; slow for any disjunction (even when a disjunct alone is fast),
for the constant `True` condition, and for any non-equality predicate
such as an edit-distance comparison. -/
theorem isFastJoin_spec :
    (∀ lc rc : String, isFastJoin (.colEq lc rc) = true)
    ∧ (∀ a b : JoinCondition, (isFastJoin a = true ∨ isFastJoin b = true) →
        isFastJoin (.conj a b) = true)
    ∧ (∀ a b : JoinCondition, isFastJoin (.disj a b) = false)
    ∧ isFastJoin (.boolLit true) = false
    ∧ (∀ d : String, isFastJoin (.custom d) = false) := by
  refine ⟨fun _ _ => rfl, ?_, fun _ _ => rfl, rfl, fun _ => rfl⟩
  intro a b h
  rcases h with h | h <;> simp [isFastJoin, h]

/-- Witness for C3 on the conditions from the repository's test matrix:
an equijoin, a levenshtein predicate AND an equijoin, an OR of two fast
disjuncts, the constant `True`, and a levenshtein predicate. -/
theorem isFastJoin_spec_witness :
    isFastJoin (.colEq "letter" "letter") = true
    ∧ isFastJoin (.conj (.custom "levenshtein") (.colEq "record_id" "record_id"))
        = true
    ∧ isFastJoin (.disj (.colEq "letter" "letter") (.colEq "record_id" "record_id"))
        = false
    ∧ isFastJoin (.boolLit true) = false
    ∧ isFastJoin (.custom "levenshtein") = false := by
  refine ⟨?_, ?_, ?_, ?_, ?_⟩
  · exact isFastJoin_spec.1 "letter" "letter"
  · exact isFastJoin_spec.2.1 (.custom "levenshtein") (.colEq "record_id" "record_id")
      (Or.inr rfl)
  · exact isFastJoin_spec.2.2.1 (.colEq "letter" "letter")
      (.colEq "record_id" "record_id")
  · exact isFastJoin_spec.2.2.2.1
  · exact isFastJoin_spec.2.2.2.2 "levenshtein"

/-- C4: when the condition is slow, `ignore` proceeds silently, `warn`
proceeds with a `SlowJoinWarning`, `error` aborts with a `SlowJoinError`
before the join executes; when the condition is fast, every policy
proceeds with no warning or error. -/
theorem check_join_algorithm_spec (cond : JoinCondition) :
    (isFastJoin cond = false →
      check_join_algorithm cond .ignore = Except.ok none
      ∧ check_join_algorithm cond .warn = Except.ok (some "SlowJoinWarning")
      ∧ check_join_algorithm cond .error = Except.error "SlowJoinError")
    ∧ (isFastJoin cond = true →
        ∀ pol : OnSlow, check_join_algorithm cond pol = Except.ok none) := by
  constructor
  · intro hslow
    refine ⟨?_, ?_, ?_⟩ <;> simp [check_join_algorithm, hslow]
  · intro hfast pol
    simp [check_join_algorithm, hfast]

/-- Witness for C4 at the cross-join condition `True` (slow) and the
equijoin condition (fast). -/
theorem check_join_algorithm_spec_witness :
    (check_join_algorithm (.boolLit true) .ignore = Except.ok none
      ∧ check_join_algorithm (.boolLit true) .warn
          = Except.ok (some "SlowJoinWarning")
      ∧ check_join_algorithm (.boolLit true) .error
          = Except.error "SlowJoinError")
    ∧ check_join_algorithm (.colEq "letter" "letter") .warn = Except.ok none := by
  constructor
  · exact (check_join_algorithm_spec (.boolLit true)).1 rfl
  · exact (check_join_algorithm_spec (.colEq "letter" "letter")).2 rfl .warn

theorem find?_append_of_none {β : Type} (p : β → Bool) (l₁ l₂ : List β)
    (h : l₁.find? p = none) : (l₁ ++ l₂).find? p = l₂.find? p := by
  induction l₁ with
  | nil => rfl
  | cons b t ih =>
    rw [List.find?_cons] at h
    rcases hb : p b with hb' | hb'
    · rw [List.cons_append, List.find?_cons, hb]
      exact ih (by rwa [hb] at h)
    · rw [hb] at h
      exact absurd h (by simp)

theorem find?_first {β : Type} (p : β → Bool) (l : List β) (d : β) (i : ℕ)
    (hi : i < l.length)
    (hbefore : ∀ j, j < i → p (l.getD j d) = false)
    (hp : p (l.getD i d) = true) : l.find? p = some (l.getD i d) := by
  induction l generalizing i with
  | nil => exact absurd hi (by simp)
  | cons b t ih =>
    cases i with
    | zero =>
      simp only [List.getD_cons_zero] at hp ⊢
      rw [List.find?_cons, hp]
    | succ i =>
      have hb : p b = false := by
        have := hbefore 0 (Nat.succ_pos i)
        simpa using this
      rw [List.find?_cons, hb]
      simp only [List.getD_cons_succ] at hp ⊢
      exact ih i (by simpa using hi)
        (fun j hj => by simpa using hbefore (j + 1) (Nat.succ_lt_succ hj)) hp

/-- C5: a Comparison with `n` declared levels (none of them named `else`)
has length `n+1`; the last entry, by integer index `n` and by the name
`else`, is the synthesized `else` level; lookup of an absent name yields
the not-found error; an integer index outside `[0, n+1)` yields the range
error. -/
theorem comparison_index_spec {α : Type} (c : Comparison α)
    (hn : ∀ lv ∈ c.levels, lv.name ≠ "else") :
    c.length = c.levels.length + 1
    ∧ c.getByIndex (c.levels.length : ℤ) = Except.ok c.elseLevel
    ∧ c.getByName "else" = Except.ok c.elseLevel
    ∧ (∀ n : String, n ≠ "else" → (∀ lv ∈ c.levels, lv.name ≠ n) →
        c.getByName n = Except.error LookupError.keyError)
    ∧ (∀ i : ℤ, (i < 0 ∨ (c.levels.length + 1 : ℤ) ≤ i) →
        c.getByIndex i = Except.error LookupError.indexError) := by
  have hlen : c.length = c.levels.length + 1 := by
    simp [Comparison.length, Comparison.allLevels]
  refine ⟨hlen, ?_, ?_, ?_, ?_⟩
  · rw [Comparison.getByIndex, dif_pos ⟨Int.natCast_nonneg _, by exact_mod_cast by omega⟩]
    have : c.allLevels.get ⟨((c.levels.length : ℤ)).toNat, by
        have hl2 : c.length = c.allLevels.length := rfl
        omega⟩ = c.elseLevel := by
      have h1 : ((c.levels.length : ℤ)).toNat = c.levels.length := by simp
      simp only [List.get_eq_getElem, Comparison.allLevels]
      rw [List.getElem_append_right (by omega)]
      simp
    rw [this]
  · rw [Comparison.getByName]
    have hnone : c.levels.find? (fun lv => lv.name = "else") = none := by
      rw [List.find?_eq_none]
      intro lv hlv
      simp [hn lv hlv]
    have : c.allLevels.find? (fun lv => lv.name = "else") = some c.elseLevel := by
      rw [Comparison.allLevels, find?_append_of_none _ _ _ hnone]
      simp [Comparison.elseLevel]
    rw [this]
  · intro n hne hnot
    rw [Comparison.getByName]
    have : c.allLevels.find? (fun lv => lv.name = n) = none := by
      rw [List.find?_eq_none]
      intro lv hlv
      rw [Comparison.allLevels, List.mem_append] at hlv
      rcases hlv with hlv | hlv
      · simp [hnot lv hlv]
      · have : lv = c.elseLevel := by simpa using hlv
        subst this
        simp [Comparison.elseLevel, Ne.symm hne]
    rw [this]
  · intro i hi
    rw [Comparison.getByIndex, dif_neg]
    intro ⟨h0, h1⟩
    rw [hlen] at h1
    push_cast at h1
    omega

/-- Witness for C5 on the test suite's cost Comparison (`n = 2` declared
levels): length 3, last entry by index 2 and by name `else`, `KeyError`
for the absent name `foo`, `IndexError` for indices 3 and -1. -/
theorem comparison_index_spec_witness :
    costComparison.length = 3
    ∧ costComparison.getByIndex 2 = Except.ok costComparison.elseLevel
    ∧ costComparison.getByName "else" = Except.ok costComparison.elseLevel
    ∧ costComparison.getByName "foo" = Except.error LookupError.keyError
    ∧ costComparison.getByIndex 3 = Except.error LookupError.indexError
    ∧ costComparison.getByIndex (-1) = Except.error LookupError.indexError := by
  have hn : ∀ lv ∈ costComparison.levels, lv.name ≠ "else" := by
    intro lv hlv
    simp only [costComparison, List.mem_cons, List.not_mem_nil, or_false] at hlv
    rcases hlv with rfl | rfl <;> simp
  have h := comparison_index_spec costComparison hn
  refine ⟨h.1, ?_, h.2.2.1, ?_, ?_, ?_⟩
  · exact h.2.1
  · refine h.2.2.2.1 "foo" (by decide) ?_
    intro lv hlv
    simp only [costComparison, List.mem_cons, List.not_mem_nil, or_false] at hlv
    rcases hlv with rfl | rfl <;> simp
  · exact h.2.2.2.2 3 (by decide)
  · exact h.2.2.2.2 (-1) (by decide)

/-- C6: the declared levels' predicates are evaluated in declaration
order; the first predicate that evaluates true determines the label (so a
row satisfying several levels gets the earliest-declared one), and a row
satisfying none is labeled `"else"`. -/
theorem comparison_labelRow_spec {α : Type} (c : Comparison α) (row : α) :
    (∀ i : ℕ, i < c.levels.length →
      (∀ j : ℕ, j < i →
        (c.levels.getD j ⟨"", fun _ => false⟩).condition row = false) →
      (c.levels.getD i ⟨"", fun _ => false⟩).condition row = true →
      c.labelRow row = (c.levels.getD i ⟨"", fun _ => false⟩).name)
    ∧ ((∀ lv ∈ c.levels, lv.condition row = false) →
        c.labelRow row = "else") := by
  constructor
  · intro i hi hbefore hp
    rw [Comparison.labelRow,
      find?_first (fun lv => lv.condition row) c.levels ⟨"", fun _ => false⟩ i hi
        hbefore hp]
  · intro hnone
    rw [Comparison.labelRow, List.find?_eq_none.mpr (fun lv hlv => by
      simp [hnone lv hlv])]

/-- Witness for C6 on the cost Comparison: the row `(99, 99)` satisfies
both `large` and `exact` and is labeled `large` (earliest declared); the
row `(1, 2)` satisfies neither and is labeled `else`. -/
theorem comparison_labelRow_spec_witness :
    costComparison.labelRow (99, 99) = "large"
    ∧ costComparison.labelRow (1, 2) = "else" := by
  constructor
  · have h := (comparison_labelRow_spec costComparison (99, 99)).1 0 (by decide)
      (fun j hj => absurd hj (by omega)) (by decide)
    simpa using h
  · refine (comparison_labelRow_spec costComparison (1, 2)).2 ?_
    intro lv hlv
    simp only [costComparison, List.mem_cons, List.not_mem_nil, or_false] at hlv
    rcases hlv with rfl | rfl <;> simp [costComparison]

/-- C2: counterexample.  `train_using_labels` exposes no seed parameter
and `train_us_using_sampling` calls `sample_all_pairs` unseeded, so the
result depends on the engine's hidden random state: two independent runs
(hidden states 0 and 1) over the same fixed labeled datasets produce
different u values, hence different weights.  (The docstring of
`train_us_using_sampling` promises reproducibility via a seed parameter
that its signature does not have.) -/
theorem train_using_labels_two_runs_differ :
    train_using_labels 0 [exactComparer] cexLeft cexRight (some 3)
      ≠ train_using_labels 1 [exactComparer] cexLeft cexRight (some 3) := by
  have e0 : train_using_labels 0 [exactComparer] cexLeft cexRight (some 3)
      = [some ⟨"cost", [⟨"exact",
          ((1 : ℕ) : ℚ) / ((2 : ℕ) : ℚ), ((2 : ℕ) : ℚ) / ((3 : ℕ) : ℚ)⟩]⟩] := by
    rfl
  have e1 : train_using_labels 1 [exactComparer] cexLeft cexRight (some 3)
      = [some ⟨"cost", [⟨"exact",
          ((1 : ℕ) : ℚ) / ((2 : ℕ) : ℚ), ((1 : ℕ) : ℚ) / ((3 : ℕ) : ℚ)⟩]⟩] := by
    rfl
  rw [e0, e1]
  intro heq
  simp only [List.cons.injEq, Option.some.injEq, ComparerWeights.mk.injEq,
    LevelWeights.mk.injEq, and_true, true_and] at heq
  norm_num at heq

/-- C7: a level observed zero times in the sample is assigned the
pseudo-count 1 and the adjusted total, so its proportion is exactly
`1 / n_total` and lies strictly between 0 and 1 — in particular it is
never 0, which is what keeps the derived `log2(m/u)` weight finite. -/
theorem level_proportions_smoothing_spec (levels labels : List ℤ) (i : ℕ)
    (hnd : levels.Nodup) (h2 : 2 ≤ levels.length) (hi : i < levels.length)
    (hzero : labels.count (levels.getD i 0) = 0) :
    (level_proportions levels labels).getD i 0
      = 1 / (smoothed_total levels labels : ℚ)
    ∧ 0 < (level_proportions levels labels).getD i 0
    ∧ (level_proportions levels labels).getD i 0 < 1 := by
  have hget : (level_proportions levels labels).getD i 0
      = (smoothed_count labels (levels.getD i 0) : ℚ)
        / (smoothed_total levels labels : ℚ) := by
    rw [level_proportions, List.getD_eq_getElem?_getD, List.getElem?_map,
      List.getElem?_eq_getElem hi]
    simp [List.getD_eq_getElem?_getD, List.getElem?_eq_getElem hi]
  have hsc : smoothed_count labels (levels.getD i 0) = 1 := by
    rw [smoothed_count, if_pos hzero]
  have htot : 2 ≤ smoothed_total levels labels := by
    have hded : levels.dedup = levels := List.Nodup.dedup hnd
    have hone : ∀ x ∈ levels.map (smoothed_count labels), 1 ≤ x := by
      intro x hx
      rcases List.mem_map.mp hx with ⟨lev, _, rfl⟩
      rw [smoothed_count]
      split
      · exact le_refl 1
      · omega
    have hlen : (levels.map (smoothed_count labels)).length = levels.length := by
      simp
    have hsum : levels.length ≤ (levels.map (smoothed_count labels)).sum := by
      calc levels.length = (levels.map (smoothed_count labels)).length := hlen.symm
        _ ≤ (levels.map (smoothed_count labels)).sum :=
          List.length_le_sum_of_one_le _ hone
    rw [smoothed_total, hded]
    omega
  refine ⟨by rw [hget, hsc]; norm_num, ?_, ?_⟩
  · rw [hget, hsc]
    have : (0 : ℚ) < (smoothed_total levels labels : ℚ) := by
      exact_mod_cast by omega
    positivity
  · rw [hget, hsc]
    rw [div_lt_one (by exact_mod_cast by omega)]
    exact_mod_cast by omega

/-- Witness for C7: levels `[0, 1]` with sample labels `[1, 1]`: level 0
is unobserved and gets proportion `1/3`, strictly between 0 and 1. -/
theorem level_proportions_smoothing_spec_witness :
    (level_proportions [0, 1] [1, 1]).getD 0 0 = 1 / (3 : ℚ)
    ∧ 0 < (level_proportions [0, 1] [1, 1]).getD 0 0
    ∧ (level_proportions [0, 1] [1, 1]).getD 0 0 < 1 := by
  have h := level_proportions_smoothing_spec [0, 1] [1, 1] 0 (by decide)
    (by decide) (by decide) (by decide)
  refine ⟨?_, h.2.1, h.2.2⟩
  rw [h.1]
  norm_num [smoothed_total, smoothed_count]

theorem make_weights_names_aux (levels : List String) (ms us : List ℚ)
    (hm : ms.length = levels.length) (hu : us.length = levels.length) :
    (((levels.zip (ms.zip us)).map
        (fun x => LevelWeights.mk x.1 x.2.1 x.2.2)).filter
      (fun lw => lw.name ≠ "else")).map (fun lw => lw.name)
      = levels.filter (fun n => n ≠ "else") := by
  induction levels generalizing ms us with
  | nil => simp
  | cons n t ih =>
    cases ms with
    | nil => simp at hm
    | cons m mt =>
      cases us with
      | nil => simp at hu
      | cons u ut =>
        have ht := ih mt ut (by simpa using hm) (by simpa using hu)
        by_cases hn : n = "else" <;>
          simpa [List.filter_cons, hn] using ht

/-- C8: with per-level m and u lists matching the comparer's levels,
`make_weights` succeeds and returns one `LevelWeights` per non-`else`
level, in the comparer's declared order (the reported names are exactly
the declared names with `else` filtered out), each entry carrying that
level's own m and u. -/
theorem make_weights_spec (cname : String) (levels : List String)
    (ms us : List ℚ) (hm : ms.length = levels.length)
    (hu : us.length = levels.length) :
    ∃ w : ComparerWeights, make_weights cname levels ms us = some w
      ∧ w.name = cname
      ∧ w.level_weights.map (fun lw => lw.name)
          = levels.filter (fun n => n ≠ "else")
      ∧ ∀ i : ℕ, i < levels.length → levels.getD i "" ≠ "else" →
          LevelWeights.mk (levels.getD i "") (ms.getD i 0) (us.getD i 0)
            ∈ w.level_weights := by
  refine ⟨_, by rw [make_weights, if_pos ⟨by omega, hu⟩], rfl, ?_, ?_⟩
  · exact make_weights_names_aux levels ms us (by omega) (by omega)
  · intro i hilt hine
    have him : i < ms.length := by omega
    have hiu : i < us.length := by omega
    have hizip : i < (levels.zip (ms.zip us)).length := by
      simp only [List.length_zip]
      omega
    have hcell : (levels.zip (ms.zip us)).get ⟨i, hizip⟩
        = (levels.getD i "", (ms.getD i 0, us.getD i 0)) := by
      rw [List.get_eq_getElem]
      rw [List.getElem_zip, List.getElem_zip]
      rw [List.getD_eq_getElem levels "" hilt, List.getD_eq_getElem ms 0 him,
        List.getD_eq_getElem us 0 hiu]
    refine List.mem_filter.mpr ⟨?_, by
      simp only [decide_eq_true_eq]
      simpa [List.getD_eq_getElem?_getD] using hine⟩
    refine List.mem_map.mpr
      ⟨(levels.getD i "", (ms.getD i 0, us.getD i 0)), ?_, rfl⟩
    rw [← hcell]
    exact List.get_mem _ i hizip

/-- Witness for C8: two levels `exact`, `else` with concrete m and u
estimates: the assembled weights keep exactly the `exact` entry with its
own m and u. -/
theorem make_weights_spec_witness :
    ∃ w : ComparerWeights,
      make_weights "cost" ["exact", "else"]
          [1 / 2, 1 / 2] [2 / 3, 1 / 3] = some w
      ∧ w.name = "cost"
      ∧ w.level_weights.map (fun lw => lw.name)
          = (["exact", "else"].filter (fun n => n ≠ "else"))
      ∧ ∀ i : ℕ, i < (["exact", "else"] : List String).length →
          (["exact", "else"] : List String).getD i "" ≠ "else" →
          LevelWeights.mk ((["exact", "else"] : List String).getD i "")
              (([1 / 2, 1 / 2] : List ℚ).getD i 0)
              (([2 / 3, 1 / 3] : List ℚ).getD i 0)
            ∈ w.level_weights :=
  make_weights_spec "cost" ["exact", "else"] [1 / 2, 1 / 2] [2 / 3, 1 / 3]
    (by decide) (by decide)

/-- C9: deriving the blocked-data view fails with the two-column schema
error whenever the candidate-pair table does not have exactly two columns,
and the column-count check passes exactly when it has two columns,
whatever the column names or row contents. -/
theorem check_id_pairs_spec (left right : Dataset) (pair_table : Table) :
    (pair_table.cols.length ≠ 2 →
      join_datasets left right pair_table
        = Except.error ("Expected id_pairs to have 2 columns, but it has "
            ++ String.intercalate ", " pair_table.cols))
    ∧ (check_id_pairs pair_table = Except.ok ()
        ↔ pair_table.cols.length = 2) := by
  constructor
  · intro hne
    rw [join_datasets]
    rw [check_id_pairs, if_pos hne]
    rfl
  · constructor
    · intro hok
      by_contra hne
      rw [check_id_pairs, if_pos hne] at hok
      exact Except.noConfusion hok
    · intro h2
      rw [check_id_pairs, if_neg (by omega)]

/-- Witness for C9: a one-column pair table makes `join_datasets` fail
with the schema error; a two-column pair table passes the check. -/
theorem check_id_pairs_spec_witness :
    join_datasets cexDataset cexDataset ⟨["a"], []⟩
      = Except.error ("Expected id_pairs to have 2 columns, but it has "
          ++ String.intercalate ", " ["a"])
    ∧ check_id_pairs ⟨["x", "y"], [[1, 2]]⟩ = Except.ok () := by
  constructor
  · exact (check_id_pairs_spec cexDataset cexDataset ⟨["a"], []⟩).1 (by decide)
  · exact (check_id_pairs_spec cexDataset cexDataset ⟨["x", "y"], [[1, 2]]⟩).2.mpr
      (by decide)

theorem pyUpperChar_not_lower (c : Char) :
    isAsciiLowerChar (pyUpperChar c) = false := by
  rw [pyUpperChar]
  by_cases h : (97 ≤ c.toNat && c.toNat ≤ 122) = true
  · rw [if_pos h]
    simp only [Bool.and_eq_true, decide_eq_true_eq] at h
    rw [isAsciiLowerChar]
    have h3 : (Char.ofNat (c.toNat - 32)).toNat = c.toNat - 32 := by
      have h1 : 65 ≤ c.toNat - 32 := by omega
      have h2 : c.toNat - 32 ≤ 90 := by omega
      set n := c.toNat - 32 with hn
      interval_cases n <;> decide
    rw [h3]
    simp only [Bool.and_eq_false_iff, decide_eq_false_iff_not]
    left
    omega
  · rw [if_neg h]
    rw [isAsciiLowerChar]
    simpa using h

theorem pyUpperChar_fix (c : Char) (h : isAsciiLowerChar c = false) :
    pyUpperChar c = c := by
  rw [pyUpperChar, if_neg]
  rw [isAsciiLowerChar] at h
  simp [h]

theorem ws_not_alnum (c : Char) (h : isWsChar c = true) :
    isAlnumChar c = false := by
  simp only [isWsChar, Bool.or_eq_true, decide_eq_true_eq] at h
  simp only [isAlnumChar, Bool.or_eq_false_iff, Bool.and_eq_false_iff,
    decide_eq_false_iff_not]
  omega

theorem mem_collapseRunsAux (p : Char → Bool) (u : List Char) (b : Bool)
    (c : Char) (hc : c ∈ collapseRunsAux p b u) :
    c = ' ' ∨ (c ∈ u ∧ p c = false) := by
  induction u generalizing b with
  | nil => simp [collapseRunsAux] at hc
  | cons d ds ih =>
    rw [collapseRunsAux] at hc
    by_cases hd : p d = true
    · rw [if_pos hd] at hc
      rcases b with _ | _
      · rw [if_neg (by simp)] at hc
        rcases List.mem_cons.mp hc with rfl | hc
        · exact Or.inl rfl
        · rcases ih true hc with h | ⟨h1, h2⟩
          · exact Or.inl h
          · exact Or.inr ⟨List.mem_cons_of_mem d h1, h2⟩
      · rw [if_pos rfl] at hc
        rcases ih true hc with h | ⟨h1, h2⟩
        · exact Or.inl h
        · exact Or.inr ⟨List.mem_cons_of_mem d h1, h2⟩
    · rw [if_neg hd] at hc
      rcases List.mem_cons.mp hc with rfl | hc
      · exact Or.inr ⟨List.mem_cons_self c ds, by simpa using hd⟩
      · rcases ih false hc with h | ⟨h1, h2⟩
        · exact Or.inl h
        · exact Or.inr ⟨List.mem_cons_of_mem d h1, h2⟩

theorem headNotP_collapseRunsAux_true (p : Char → Bool) (u : List Char) :
    headNotP p (collapseRunsAux p true u) := by
  induction u with
  | nil => trivial
  | cons d ds ih =>
    rw [collapseRunsAux]
    by_cases hd : p d = true
    · rw [if_pos hd, if_pos rfl]
      exact ih
    · rw [if_neg hd]
      simpa [headNotP] using hd

theorem noAdj_cons_elim (p : Char → Bool) (c : Char) (l : List Char)
    (h : noAdj p (c :: l) = true) : noAdj p l = true := by
  cases l with
  | nil => rfl
  | cons d ds =>
    rw [noAdj, Bool.and_eq_true] at h
    exact h.2

theorem noAdj_cons_intro (p : Char → Bool) (c : Char) (l : List Char)
    (hl : noAdj p l = true)
    (hhead : ∀ d ds, l = d :: ds → (p c && p d) = false) :
    noAdj p (c :: l) = true := by
  cases l with
  | nil => rfl
  | cons d ds =>
    rw [noAdj, Bool.and_eq_true]
    exact ⟨by simp [hhead d ds rfl], hl⟩

theorem noAdj_collapseRunsAux (p : Char → Bool) (u : List Char) (b : Bool) :
    noAdj p (collapseRunsAux p b u) = true := by
  induction u generalizing b with
  | nil => rfl
  | cons d ds ih =>
    rw [collapseRunsAux]
    by_cases hd : p d = true
    · rw [if_pos hd]
      rcases b with _ | _
      · rw [if_neg (by simp)]
        refine noAdj_cons_intro p ' ' _ (ih true) ?_
        intro e es he
        have := headNotP_collapseRunsAux_true p ds
        rw [he] at this
        simp [headNotP] at this
        simp [this]
      · rw [if_pos rfl]
        exact ih true
    · rw [if_neg hd]
      refine noAdj_cons_intro p d _ (ih false) ?_
      intro e es he
      simp only [Bool.not_eq_true] at hd
      simp [hd]

theorem collapseRunsAux_eq_self (p : Char → Bool) (l : List Char)
    (hAdj : noAdj p l = true) (hsp : ∀ c ∈ l, p c = true → c = ' ')
    (b : Bool) (hb : b = true → headNotP p l) :
    collapseRunsAux p b l = l := by
  induction l generalizing b with
  | nil => rfl
  | cons c cs ih =>
    rw [collapseRunsAux]
    by_cases hc : p c = true
    · rcases b with _ | _
      · rw [if_pos hc, if_neg (by simp)]
        have hcsp : c = ' ' := hsp c (List.mem_cons_self c cs) hc
        have htail : collapseRunsAux p true cs = cs := by
          refine ih (noAdj_cons_elim p c cs hAdj)
            (fun x hx hpx => hsp x (List.mem_cons_of_mem c hx) hpx) true ?_
          intro _
          cases cs with
          | nil => trivial
          | cons d ds =>
            rw [noAdj, Bool.and_eq_true] at hAdj
            have := hAdj.1
            simp only [Bool.not_eq_true', Bool.and_eq_false_iff] at this
            rcases this with h | h
            · exact absurd hc (by simp [h])
            · simpa [headNotP] using h
        rw [htail, hcsp]
      · exact absurd (hb rfl) (by simpa [headNotP] using hc)
    · rw [if_neg hc]
      have htail : collapseRunsAux p false cs = cs :=
        ih (noAdj_cons_elim p c cs hAdj)
          (fun x hx hpx => hsp x (List.mem_cons_of_mem c hx) hpx) false
          (by intro h; exact absurd h (by simp))
      rw [htail]

theorem noAdj_append_left (p : Char → Bool) (l t : List Char)
    (h : noAdj p (l ++ t) = true) : noAdj p l = true := by
  induction l with
  | nil => rfl
  | cons c cs ih =>
    cases cs with
    | nil => rfl
    | cons d ds =>
      rw [List.cons_append] at h
      rw [noAdj]
      rw [List.cons_append, noAdj, Bool.and_eq_true] at h
      rw [Bool.and_eq_true]
      exact ⟨h.1, ih h.2⟩

theorem noAdj_append_right (p : Char → Bool) (t l : List Char)
    (h : noAdj p (t ++ l) = true) : noAdj p l = true := by
  induction t with
  | nil => simpa using h
  | cons c cs ih =>
    rw [List.cons_append] at h
    exact ih (noAdj_cons_elim p c (cs ++ l) h)

theorem noAdj_mono (p q : Char → Bool) (hq : ∀ c, q c = true → p c = true)
    (l : List Char) (h : noAdj p l = true) : noAdj q l = true := by
  induction l with
  | nil => rfl
  | cons c cs ih =>
    cases cs with
    | nil => rfl
    | cons d ds =>
      rw [noAdj, Bool.and_eq_true] at h ⊢
      refine ⟨?_, ih h.2⟩
      have h1 := h.1
      simp only [Bool.not_eq_true', Bool.and_eq_false_iff] at h1 ⊢
      rcases h1 with h1 | h1
      · rcases hqc : q c with _ | _
        · exact Or.inl rfl
        · exact absurd (hq c hqc) (by simp [h1])
      · rcases hqd : q d with _ | _
        · exact Or.inr rfl
        · exact absurd (hq d hqd) (by simp [h1])

theorem headNotP_dropWhile (p : Char → Bool) (l : List Char) :
    headNotP p (l.dropWhile p) := by
  induction l with
  | nil => trivial
  | cons c cs ih =>
    rw [List.dropWhile_cons]
    by_cases hc : p c = true
    · rw [if_pos hc]
      exact ih
    · rw [if_neg hc]
      simpa [headNotP] using hc

theorem dropWhile_eq_self_of_headNotP (p : Char → Bool) (l : List Char)
    (h : headNotP p l) : l.dropWhile p = l := by
  cases l with
  | nil => rfl
  | cons c cs =>
    rw [List.dropWhile_cons, if_neg (by simpa [headNotP] using h)]

theorem mem_stripChars (c : Char) (l : List Char) (h : c ∈ stripChars l) :
    c ∈ l := by
  rw [stripChars, List.mem_reverse] at h
  have h2 := (List.dropWhile_suffix isWsChar).subset h
  rw [List.mem_reverse] at h2
  exact (List.dropWhile_suffix isWsChar).subset h2

theorem noAdj_stripChars (p : Char → Bool) (l : List Char)
    (h : noAdj p l = true) : noAdj p (stripChars l) = true := by
  have hy : noAdj p (l.dropWhile isWsChar) = true := by
    obtain ⟨t, ht⟩ := List.dropWhile_suffix (l := l) isWsChar
    exact noAdj_append_right p t _ (by rw [ht]; exact h)
  have hpre : stripChars l <+: l.dropWhile isWsChar := by
    rw [← List.reverse_suffix]
    rw [stripChars, List.reverse_reverse]
    exact List.dropWhile_suffix isWsChar
  obtain ⟨t, ht⟩ := hpre
  exact noAdj_append_left p _ t (by rw [ht]; exact hy)

theorem headNotP_stripChars (l : List Char) :
    headNotP isWsChar (stripChars l)
    ∧ headNotP isWsChar (stripChars l).reverse := by
  constructor
  · have hpre : stripChars l <+: l.dropWhile isWsChar := by
      rw [← List.reverse_suffix]
      rw [stripChars, List.reverse_reverse]
      exact List.dropWhile_suffix isWsChar
    have hy := headNotP_dropWhile isWsChar l
    cases hs : stripChars l with
    | nil => trivial
    | cons c cs =>
      rw [hs] at hpre
      obtain ⟨t, ht⟩ := hpre
      rw [List.cons_append] at ht
      rw [← ht] at hy
      simpa [headNotP] using hy
  · rw [stripChars, List.reverse_reverse]
    exact headNotP_dropWhile isWsChar _

theorem stripChars_eq_self (l : List Char)
    (h1 : headNotP isWsChar l) (h2 : headNotP isWsChar l.reverse) :
    stripChars l = l := by
  rw [stripChars, dropWhile_eq_self_of_headNotP isWsChar l h1,
    dropWhile_eq_self_of_headNotP isWsChar l.reverse h2,
    List.reverse_reverse]

theorem map_id_of_fix (f : Char → Char) (l : List Char)
    (h : ∀ c ∈ l, f c = c) : l.map f = l := by
  induction l with
  | nil => rfl
  | cons c cs ih =>
    rw [List.map_cons, h c (List.mem_cons_self c cs),
      ih (fun x hx => h x (List.mem_cons_of_mem c hx))]

/-- C10: `normalize_name_field` is idempotent: its output — uppercased,
with non-alphanumeric runs collapsed to single spaces, whitespace
collapsed, and stripped — is a fixed point of the transform. -/
theorem normalize_name_field_idempotent (s : List Char) :
    normalize_name_field (normalize_name_field s)
      = normalize_name_field s := by
  set na : Char → Bool := fun c => !isAlnumChar c with hna
  set t : List Char := collapseRuns na (s.map pyUpperChar) with ht
  -- facts about the collapsed string t
  have f1 : ∀ c ∈ t, c = ' ' ∨ (c ∈ s.map pyUpperChar ∧ na c = false) :=
    fun c hc => mem_collapseRunsAux na (s.map pyUpperChar) false c hc
  have f2 : ∀ c ∈ t, isAsciiLowerChar c = false := by
    intro c hc
    rcases f1 c hc with rfl | ⟨hmem, _⟩
    · decide
    · rcases List.mem_map.mp hmem with ⟨c0, _, rfl⟩
      exact pyUpperChar_not_lower c0
  have f3 : ∀ c ∈ t, na c = true → c = ' ' := by
    intro c hc hpc
    rcases f1 c hc with rfl | ⟨_, hfalse⟩
    · rfl
    · rw [hpc] at hfalse
      exact absurd hfalse (by simp)
  have f4 : noAdj na t = true := noAdj_collapseRunsAux na _ false
  have hwsna : ∀ c, isWsChar c = true → na c = true := by
    intro c hc
    rw [hna]
    simp [ws_not_alnum c hc]
  have f5 : noAdj isWsChar t = true := noAdj_mono na isWsChar hwsna t f4
  have f6 : ∀ c ∈ t, isWsChar c = true → c = ' ' :=
    fun c hc hw => f3 c hc (hwsna c hw)
  -- the whitespace-collapsing pass is the identity on t
  have step1 : collapseRuns isWsChar t = t :=
    collapseRunsAux_eq_self isWsChar t f5 f6 false (by intro h; simp at h)
  have hnorm : normalize_name_field s = stripChars t := by
    rw [normalize_name_field, ← ht, step1]
  -- facts about the stripped string r
  set r : List Char := stripChars t with hr
  have hrmem : ∀ c ∈ r, c ∈ t := fun c hc => mem_stripChars c t hc
  have g1 : r.map pyUpperChar = r :=
    map_id_of_fix pyUpperChar r
      (fun c hc => pyUpperChar_fix c (f2 c (hrmem c hc)))
  have g2 : collapseRuns na r = r :=
    collapseRunsAux_eq_self na r (noAdj_stripChars na t f4)
      (fun c hc => f3 c (hrmem c hc)) false (by intro h; simp at h)
  have g3 : collapseRuns isWsChar r = r :=
    collapseRunsAux_eq_self isWsChar r (noAdj_stripChars isWsChar t f5)
      (fun c hc => f6 c (hrmem c hc)) false (by intro h; simp at h)
  have g4 : stripChars r = r :=
    stripChars_eq_self r (headNotP_stripChars t).1 (headNotP_stripChars t).2
  calc normalize_name_field (normalize_name_field s)
      = normalize_name_field r := by rw [hnorm]
    _ = stripChars (collapseRuns isWsChar (collapseRuns na (r.map pyUpperChar))) :=
        rfl
    _ = r := by rw [g1, g2, g3, g4]
    _ = normalize_name_field s := hnorm.symm

end Mismo
